import Mathlib

/-!
# Verification of gotldextract's core extraction logic

A shallow embedding, in Lean 4, of the `gotldextract` Go package
(`tldextract.go`): the input normalizer `cleanDomain`, the public-suffix
resolution used by `Extract`, the `Extract` / `ExtractFromURL` entry points,
and the derived accessors `Result.String` and `Result.FQDN`.

Go strings are modelled as lists of characters (`Str := List Char`).  Case
mapping models Go's `strings.ToLower` / `strings.ToUpper` on ASCII together
with the case-asymmetric Unicode points U+017F (`ſ`, upper-cased to `S`)
and U+0131 (`ı`, upper-cased to `I`), whose round trip through upper- then
lower-casing does not restore the original; the remaining non-ASCII
letters (whose Go case mappings are symmetric and round-trip cleanly) are
left as fixed points, so theorems about non-ASCII inputs are stated only
where this fragment is faithful.  The suffix
lookup `publicsuffix.PublicSuffix` lives in an external library
(`golang.org/x/net/publicsuffix`), not in this repository; it is modelled
from the specification's resolver algorithm (spec section 4.2) over an explicit
rule set, and `Extract` is parameterised by that rule set.

Go's `(*Result, error)` return pair is modelled as `Except Str Result`:
`.ok r` stands for a non-nil result together with a nil error.
-/

/-- Go strings, modelled as lists of characters. -/
abbrev Str := List Char

/-! ## Character case mapping (ASCII fragment of Go's strings.ToLower/ToUpper) -/

/-- ASCII lower-casing of one character: `'A'..'Z'` maps to `'a'..'z'`,
everything else is unchanged. -/
def toLowerChar (c : Char) : Char :=
  if 'A' ≤ c ∧ c ≤ 'Z' then Char.ofNat (c.toNat + 32) else c

/-- Upper-casing of one character, after Go's `unicode.ToUpper`:
`'a'..'z'` map to `'A'..'Z'`, and the case-asymmetric points `'ſ'` (U+017F)
and `'ı'` (U+0131) map to `'S'` and `'I'` as in the Unicode simple case
mapping Go applies; other characters are unchanged in this fragment. -/
def toUpperChar (c : Char) : Char :=
  if 'a' ≤ c ∧ c ≤ 'z' then Char.ofNat (c.toNat - 32)
  else if c = 'ſ' then 'S'
  else if c = 'ı' then 'I'
  else c

/-- Models Go `strings.ToLower` on the fragment described in the header;
`'ſ'` and `'ı'` have no lower-case mapping in Go either and stay fixed. -/
def toLowerStr (s : Str) : Str := s.map toLowerChar

/-- Models Go `strings.ToUpper` on the fragment described in the header. -/
def toUpperStr (s : Str) : Str := s.map toUpperChar

theorem char_toNat_ofNat (n : Nat) (h : n.isValidChar) : (Char.ofNat n).toNat = n := by
  simp [Char.ofNat, h, Char.toNat, Char.ofNatAux, UInt32.toNat, BitVec.toNat_ofNatLt]

theorem char_le_iff_toNat (a b : Char) : a ≤ b ↔ a.toNat ≤ b.toNat := by
  rw [Char.le_def]; rfl

theorem char_eq_iff_toNat (a b : Char) : a = b ↔ a.toNat = b.toNat := by
  constructor
  · intro h; rw [h]
  · intro h
    exact Char.eq_of_val_eq (UInt32.eq_of_toBitVec_eq (BitVec.eq_of_toNat_eq h))

theorem toLowerChar_toNat_of_upper (c : Char) (h1 : 'A' ≤ c) (h2 : c ≤ 'Z') :
    (toLowerChar c).toNat = c.toNat + 32 := by
  rw [toLowerChar, if_pos ⟨h1, h2⟩]
  apply char_toNat_ofNat
  apply Or.inl
  rw [char_le_iff_toNat] at h2
  have : Char.toNat 'Z' = 90 := by decide
  omega

theorem toLowerChar_of_not_upper (c : Char) (h : ¬('A' ≤ c ∧ c ≤ 'Z')) :
    toLowerChar c = c := by
  rw [toLowerChar, if_neg h]

theorem toUpperChar_toNat_of_lower (c : Char) (h1 : 'a' ≤ c) (h2 : c ≤ 'z') :
    (toUpperChar c).toNat = c.toNat - 32 := by
  rw [toUpperChar, if_pos ⟨h1, h2⟩]
  apply char_toNat_ofNat
  apply Or.inl
  rw [char_le_iff_toNat] at h2
  have : Char.toNat 'z' = 122 := by decide
  omega

theorem toUpperChar_of_not_lower (c : Char) (h : ¬('a' ≤ c ∧ c ≤ 'z'))
    (hs : c ≠ 'ſ') (hi : c ≠ 'ı') : toUpperChar c = c := by
  rw [toUpperChar, if_neg h, if_neg hs, if_neg hi]

theorem toLowerChar_idem (c : Char) : toLowerChar (toLowerChar c) = toLowerChar c := by
  by_cases h : 'A' ≤ c ∧ c ≤ 'Z'
  · obtain ⟨h1, h2⟩ := h
    have hn := toLowerChar_toNat_of_upper c h1 h2
    rw [char_le_iff_toNat] at h1 h2
    have hA : Char.toNat 'A' = 65 := by decide
    have hZ : Char.toNat 'Z' = 90 := by decide
    apply toLowerChar_of_not_upper
    intro ⟨g1, g2⟩
    rw [char_le_iff_toNat] at g1 g2
    omega
  · rw [toLowerChar_of_not_upper c h, toLowerChar_of_not_upper c h]

/-- For ASCII characters, lower-casing after upper-casing agrees with
lower-casing directly.  This fails for the asymmetric points `'ſ'` and
`'ı'` (e.g. `toLowerChar (toUpperChar 'ſ') = 's'` but
`toLowerChar 'ſ' = 'ſ'`), exactly as in Go. -/
theorem toLowerChar_toUpperChar_of_ascii (c : Char) (hc : c.toNat < 128) :
    toLowerChar (toUpperChar c) = toLowerChar c := by
  by_cases h : 'a' ≤ c ∧ c ≤ 'z'
  · obtain ⟨h1, h2⟩ := h
    have hn := toUpperChar_toNat_of_lower c h1 h2
    rw [char_le_iff_toNat] at h1 h2
    have ha : Char.toNat 'a' = 97 := by decide
    have hz : Char.toNat 'z' = 122 := by decide
    have hup : 'A' ≤ toUpperChar c ∧ toUpperChar c ≤ 'Z' := by
      constructor <;> rw [char_le_iff_toNat] <;> simp [hn] <;> omega
    have h3 := toLowerChar_toNat_of_upper _ hup.1 hup.2
    have hlow : toLowerChar c = c := by
      apply toLowerChar_of_not_upper
      intro ⟨g1, g2⟩
      rw [char_le_iff_toNat] at g1 g2
      have : Char.toNat 'A' = 65 := by decide
      have : Char.toNat 'Z' = 90 := by decide
      omega
    rw [hlow, char_eq_iff_toNat, h3, hn]
    omega
  · have hs : c ≠ 'ſ' := by
      intro he
      rw [he] at hc
      exact absurd hc (by decide)
    have hi : c ≠ 'ı' := by
      intro he
      rw [he] at hc
      exact absurd hc (by decide)
    rw [toUpperChar_of_not_lower c h hs hi]

/-- `toLowerChar` fixes and reflects every character below `'A'` (code 65),
in particular `'.'`, `'/'` and `':'`: lower-casing only moves ASCII
upper-case letters, and moves them into `'a'..'z'`. -/
theorem toLowerChar_eq_iff (c x : Char) (hx : x.toNat < 65) :
    toLowerChar c = x ↔ c = x := by
  have hA : Char.toNat 'A' = 65 := by decide
  have hZ : Char.toNat 'Z' = 90 := by decide
  by_cases h : 'A' ≤ c ∧ c ≤ 'Z'
  · obtain ⟨h1, h2⟩ := h
    have hn := toLowerChar_toNat_of_upper c h1 h2
    rw [char_le_iff_toNat] at h1 h2
    constructor
    · intro he
      rw [char_eq_iff_toNat] at he
      omega
    · intro he
      rw [char_eq_iff_toNat] at he
      omega
  · rw [toLowerChar_of_not_upper c h]

/-- `toUpperChar` fixes and reflects every character below `'A'` (code 65),
in particular `'.'`, `'/'` and `':'`: upper-casing only moves ASCII
lower-case letters, and moves them into `'A'..'Z'`. -/
theorem toUpperChar_eq_iff (c x : Char) (hx : x.toNat < 65) :
    toUpperChar c = x ↔ c = x := by
  have ha : Char.toNat 'a' = 97 := by decide
  have hz : Char.toNat 'z' = 122 := by decide
  by_cases h : 'a' ≤ c ∧ c ≤ 'z'
  · obtain ⟨h1, h2⟩ := h
    have hn := toUpperChar_toNat_of_lower c h1 h2
    rw [char_le_iff_toNat] at h1 h2
    constructor
    · intro he
      rw [char_eq_iff_toNat] at he
      omega
    · intro he
      rw [char_eq_iff_toNat] at he
      omega
  · by_cases hs : c = 'ſ'
    · have hv : toUpperChar c = 'S' := by
        rw [hs]
        decide
      rw [hv]
      constructor
      · intro he
        rw [char_eq_iff_toNat] at he
        have : Char.toNat 'S' = 83 := by decide
        omega
      · intro he
        rw [hs] at he
        rw [char_eq_iff_toNat] at he
        have : Char.toNat 'ſ' = 383 := by decide
        omega
    · by_cases hi : c = 'ı'
      · have hv : toUpperChar c = 'I' := by
          rw [hi]
          decide
        rw [hv]
        constructor
        · intro he
          rw [char_eq_iff_toNat] at he
          have : Char.toNat 'I' = 73 := by decide
          omega
        · intro he
          rw [hi] at he
          rw [char_eq_iff_toNat] at he
          have : Char.toNat 'ı' = 305 := by decide
          omega
      · rw [toUpperChar_of_not_lower c h hs hi]

/-! ## String primitives used by the source -/

/-- Models Go `strings.Split(s, ".")`: splits on every `'.'`; the empty
string splits to `[""]`, and empty fields are kept (Go semantics). -/
def splitDots : Str → List Str
  | [] => [[]]
  | c :: rest =>
    if c = '.' then [] :: splitDots rest
    else
      match splitDots rest with
      | [] => [[c]]
      | p :: ps => (c :: p) :: ps

/-- Models Go `strings.Join(parts, ".")`. -/
def joinDots : List Str → Str
  | [] => []
  | [x] => x
  | x :: y :: ys => x ++ '.' :: joinDots (y :: ys)

/-- Models Go `strings.TrimSuffix(s, suffix)`: drops `suffix` from the end
of `s` when present, otherwise returns `s` unchanged. -/
def trimSuffix (s suffix : Str) : Str :=
  if suffix <:+ s then s.take (s.length - suffix.length) else s

/-- Scans for the first occurrence of the scheme separator `"://"`;
returns the remainder after it, or `none` when there is no occurrence.
Together with `dropScheme` this models the
`strings.Contains(domain, "://")` / `strings.SplitN(domain, "://", 2)`
block of `cleanDomain`. -/
def dropSchemeAux : Str → Option Str
  | [] => none
  | c :: rest =>
    if c = ':' ∧ rest.take 2 = ['/', '/'] then some (rest.drop 2)
    else dropSchemeAux rest

/-- The protocol-removal step of `cleanDomain`: everything up to and
including the first `"://"` is discarded; a string with no `"://"` is
unchanged. -/
def dropScheme (s : Str) : Str := (dropSchemeAux s).getD s

/-! ## The embedded program: cleanDomain, PublicSuffix, Extract -/

/-- Models `cleanDomain` from `tldextract.go`: remove the protocol
(first `"://"` and everything before it), truncate at the first `'/'`
(Go `strings.Index(domain, "/")` and reslicing), truncate at the first
`':'`, remove a single trailing `'.'` (`strings.TrimSuffix(domain, ".")`),
then lower-case (`strings.ToLower`, ASCII fragment). -/
def cleanDomain (domain : Str) : Str :=
  let d1 := dropScheme domain
  let d2 := d1.takeWhile (fun c => c ≠ '/')
  let d3 := d2.takeWhile (fun c => c ≠ ':')
  let d4 := trimSuffix d3 ['.']
  toLowerStr d4

/-- Modelled from the spec: the suffix rule set of the external suffix data
provider (`golang.org/x/net/publicsuffix`, not part of this repository's
sources).  Spec section 3: each rule is a plain suffix, a wildcard suffix
(fixed labels after the `*`), or an exception to a wildcard (the full label
sequence after the `!`).  A suffix is a list of labels, each label a `Str`. -/
structure PSRules where
  plain : List (List Str)
  wildcard : List (List Str)
  exception : List (List Str)

/-- Modelled from the spec: whether one trailing-label candidate `t`
matches a rule, and the suffix that rule yields (spec section 4.2 step 3 and
section 9): an exception rule wins and yields a suffix one label shorter;
otherwise a wildcard rule (any single label before the fixed labels)
yields `t`; otherwise a plain rule yields `t`; otherwise no match.
`wildcardMatch` holds when the candidate is one (arbitrary) label followed
by the fixed labels of a wildcard rule. -/
def wildcardMatch (r : PSRules) : List Str → Bool
  | _ :: f => decide (f ∈ r.wildcard)
  | [] => false

def candSuffix (r : PSRules) (t : List Str) : Option (List Str) :=
  if t ∈ r.exception then some t.tail
  else if wildcardMatch r t then some t
  else if t ∈ r.plain then some t
  else none

/-- Modelled from the spec: candidate suffix lengths are tried from the full
label count down to 1 (longest match wins, spec section 4.2 steps 2 and 3); if no
rule matches, the last label is the suffix (ICANN fallback convention,
spec section 4.2 step 4). -/
def findSuffix (r : PSRules) : List Str → List Str
  | [] => []
  | [x] => (candSuffix r [x]).getD [x]
  | x :: y :: ys =>
    match candSuffix r (x :: y :: ys) with
    | some s => s
    | none => findSuffix r (y :: ys)

/-- Modelled from the spec: `publicsuffix.PublicSuffix` of the external
library, over an explicit rule set (spec sections 4.2 and 9): split the host on
dots, find the longest matching suffix (with the ICANN last-label
fallback), and join it back with dots. -/
def publicSuffix (r : PSRules) (host : Str) : Str :=
  joinDots (findSuffix r (splitDots host))

/-- `Result` from `tldextract.go`: the extracted parts of a domain. -/
structure Result where
  Subdomain : Str
  Domain : Str
  TLD : Str
deriving DecidableEq

/-- Models `Extract` from `tldextract.go`, parameterised by the suffix rule
set of the external library.  `.ok r` models the Go return `(&r, nil)`
(a non-nil `*Result` with a nil error); no code path produces `.error`.
The Go source's `if !icann` branch recomputes `PublicSuffix(domain)` with
identical arguments and discards the `icann` flag, so it does not change
the suffix and is not reflected here. -/
def Extract (rules : PSRules) (domain : Str) : Except Str Result :=
  let domain := cleanDomain domain
  let suffix := publicSuffix rules domain
  if domain = suffix then
    Except.ok ⟨[], [], suffix⟩
  else
    let domainWithoutSuffix := trimSuffix domain ('.' :: suffix)
    let parts := splitDots domainWithoutSuffix
    if parts.length = 0 then
      Except.ok ⟨[], [], suffix⟩
    else
      let domainName := parts.getLastD []
      let subdomain := if parts.length > 1 then joinDots parts.dropLast else []
      Except.ok ⟨subdomain, domainName, suffix⟩

/-- Models `ExtractFromURL` from `tldextract.go`: an alias that simply
calls `Extract`. -/
def ExtractFromURL (rules : PSRules) (url : Str) : Except Str Result :=
  Extract rules url

/-- Models the `String` method on `*Result`: the registrable domain,
`Domain + "." + TLD`, or just `TLD` when `Domain` is empty. -/
def Result.String (r : Result) : Str :=
  if r.Domain = [] then r.TLD
  else r.Domain ++ ['.'] ++ r.TLD

/-- Models the `FQDN` method on `*Result`: collect the non-empty fields
among `Subdomain`, `Domain`, `TLD` in that order and join them with dots. -/
def Result.FQDN (r : Result) : Str :=
  let parts : List Str := []
  let parts := if r.Subdomain ≠ [] then parts ++ [r.Subdomain] else parts
  let parts := if r.Domain ≠ [] then parts ++ [r.Domain] else parts
  let parts := if r.TLD ≠ [] then parts ++ [r.TLD] else parts
  joinDots parts

/-- A small concrete rule set used to exercise the theorems: plain suffixes
`com`, `co.uk`, `github.io`, the wildcard `*.ck` and its exception
`!www.ck` (spec sections 3 and 8). -/
def toyRules : PSRules :=
  ⟨[["com".toList], ["co".toList, "uk".toList], ["github".toList, "io".toList]],
   [["ck".toList]],
   [["www".toList, "ck".toList]]⟩

example : cleanDomain ("HTTPS://EXAMPLE.COM:8080/PATH".toList) = "example.com".toList := by decide

example : publicSuffix toyRules ("www.example.com".toList) = "com".toList := by decide

example : Extract toyRules ("www.example.co.uk".toList) =
    Except.ok ⟨"www".toList, "example".toList, "co.uk".toList⟩ := by rfl

example : Extract toyRules ("a.b.ck".toList) =
    Except.ok ⟨[], "a".toList, "b.ck".toList⟩ := by rfl

example : Extract toyRules ("www.ck".toList) =
    Except.ok ⟨[], "www".toList, "ck".toList⟩ := by rfl

/-! ## Lemmas about the normalizer's building blocks -/

theorem not_mem_takeWhile_ne (c : Char) (s : Str) :
    c ∉ s.takeWhile (fun x => x ≠ c) := by
  intro h
  have := List.mem_takeWhile_imp h
  simp at this

theorem takeWhile_ne_eq_self (c : Char) (s : Str) (h : c ∉ s) :
    s.takeWhile (fun x => x ≠ c) = s := by
  rw [List.takeWhile_eq_self_iff]
  intro x hx
  simp
  intro he
  rw [he] at hx
  exact h hx

theorem mem_of_mem_takeWhile (p : Char → Bool) (s : Str) (x : Char)
    (h : x ∈ s.takeWhile p) : x ∈ s :=
  (List.takeWhile_sublist p).mem h

theorem mem_of_mem_trimSuffix (s suf : Str) (x : Char)
    (h : x ∈ trimSuffix s suf) : x ∈ s := by
  rw [trimSuffix] at h
  split at h
  · exact (List.take_sublist _ _).mem h
  · exact h

theorem not_mem_toLowerStr (s : Str) (x : Char) (hx : x.toNat < 65)
    (h : x ∉ s) : x ∉ toLowerStr s := by
  intro hm
  rw [toLowerStr, List.mem_map] at hm
  obtain ⟨c, hc, he⟩ := hm
  rw [toLowerChar_eq_iff c x hx] at he
  rw [he] at hc
  exact h hc

theorem toLowerStr_idem (s : Str) : toLowerStr (toLowerStr s) = toLowerStr s := by
  rw [toLowerStr, toLowerStr, List.map_map]
  apply List.map_congr_left
  intro c _
  exact toLowerChar_idem c

theorem toLowerStr_toUpperStr_of_ascii (s : Str) (h : ∀ c ∈ s, c.toNat < 128) :
    toLowerStr (toUpperStr s) = toLowerStr s := by
  rw [toLowerStr, toUpperStr, toLowerStr, List.map_map]
  apply List.map_congr_left
  intro c hc
  exact toLowerChar_toUpperChar_of_ascii c (h c hc)

theorem toLowerStr_take (s : Str) (n : Nat) :
    toLowerStr (s.take n) = (toLowerStr s).take n := by
  rw [toLowerStr, toLowerStr, List.map_take]

theorem toLowerStr_trimSuffix_of_fixed (y suf : Str) (hy : toLowerStr y = y) :
    toLowerStr (trimSuffix y suf) = trimSuffix y suf := by
  rw [trimSuffix]
  split
  · rw [toLowerStr_take, hy]
  · exact hy

/-! ## Lemmas about dropScheme -/

theorem dropSchemeAux_eq_none_of_no_slash (s : Str) (h : '/' ∉ s) :
    dropSchemeAux s = none := by
  induction s with
  | nil => rfl
  | cons c rest ih =>
    rw [dropSchemeAux]
    rw [if_neg]
    · exact ih (fun hm => h (List.mem_cons_of_mem c hm))
    · intro ⟨_, h2⟩
      apply h
      apply List.mem_cons_of_mem
      have : '/' ∈ rest.take 2 := by rw [h2]; simp
      exact (List.take_sublist _ _).mem this

theorem dropScheme_eq_self_of_no_slash (s : Str) (h : '/' ∉ s) :
    dropScheme s = s := by
  rw [dropScheme, dropSchemeAux_eq_none_of_no_slash s h]
  rfl

theorem dropSchemeAux_append_no_colon (a t : Str) (h : ':' ∉ a) :
    dropSchemeAux (a ++ t) = dropSchemeAux t := by
  induction a with
  | nil => rfl
  | cons c rest ih =>
    rw [List.cons_append, dropSchemeAux, if_neg]
    · exact ih (fun hm => h (List.mem_cons_of_mem c hm))
    · intro ⟨h1, _⟩
      exact h (h1 ▸ List.mem_cons_self c rest)

/-! ## Invariants of the normalized output -/

theorem no_slash_cleanDomain (s : Str) : '/' ∉ cleanDomain s := by
  rw [cleanDomain]
  apply not_mem_toLowerStr _ _ (by decide)
  intro hm
  have h2 := mem_of_mem_trimSuffix _ _ _ hm
  have h3 := mem_of_mem_takeWhile _ _ _ h2
  exact not_mem_takeWhile_ne '/' _ h3

theorem no_colon_cleanDomain (s : Str) : ':' ∉ cleanDomain s := by
  rw [cleanDomain]
  apply not_mem_toLowerStr _ _ (by decide)
  intro hm
  have h2 := mem_of_mem_trimSuffix _ _ _ hm
  exact not_mem_takeWhile_ne ':' _ h2

theorem toLowerStr_cleanDomain (s : Str) :
    toLowerStr (cleanDomain s) = cleanDomain s := by
  rw [cleanDomain]
  exact toLowerStr_idem _

/-- Re-normalizing a normalized string only re-runs the trailing-dot strip:
scheme, path and port removal and lower-casing are all fixed on the output
of `cleanDomain`. -/
theorem cleanDomain_cleanDomain (s : Str) :
    cleanDomain (cleanDomain s) = trimSuffix (cleanDomain s) ['.'] := by
  have hs := no_slash_cleanDomain s
  have hc := no_colon_cleanDomain s
  have hl := toLowerStr_cleanDomain s
  conv =>
    lhs
    rw [cleanDomain]
  rw [dropScheme_eq_self_of_no_slash _ hs]
  rw [takeWhile_ne_eq_self '/' _ hs]
  rw [takeWhile_ne_eq_self ':' _ hc]
  exact toLowerStr_trimSuffix_of_fixed _ _ hl

/-! ## Upper-casing commutes with every stage of the normalizer -/

theorem map_up_eq_slashes (l : Str) (h : l.map toUpperChar = ['/', '/']) :
    l = ['/', '/'] := by
  cases l with
  | nil => simp at h
  | cons a l' =>
    cases l' with
    | nil => simp at h
    | cons b l'' =>
      cases l'' with
      | nil =>
        simp only [List.map_cons, List.map_nil] at h
        have h1 := List.head_eq_of_cons_eq h
        have h2 := List.head_eq_of_cons_eq (List.tail_eq_of_cons_eq h)
        rw [toUpperChar_eq_iff a '/' (by decide)] at h1
        rw [toUpperChar_eq_iff b '/' (by decide)] at h2
        rw [h1, h2]
      | cons c l''' => simp at h

theorem dropSchemeAux_map_up (s : Str) :
    dropSchemeAux (s.map toUpperChar) = (dropSchemeAux s).map (List.map toUpperChar) := by
  induction s with
  | nil => rfl
  | cons c rest ih =>
    rw [List.map_cons, dropSchemeAux, dropSchemeAux]
    by_cases h : c = ':' ∧ rest.take 2 = ['/', '/']
    · rw [if_pos h, if_pos]
      · rw [Option.map_some', ← List.map_drop]
      · constructor
        · rw [toUpperChar_eq_iff c ':' (by decide)]
          exact h.1
        · rw [← List.map_take, h.2]
          decide
    · rw [if_neg h, if_neg, ih]
      intro ⟨g1, g2⟩
      apply h
      constructor
      · rwa [toUpperChar_eq_iff c ':' (by decide)] at g1
      · rw [← List.map_take] at g2
        exact map_up_eq_slashes _ g2

theorem dropScheme_map_up (s : Str) :
    dropScheme (s.map toUpperChar) = (dropScheme s).map toUpperChar := by
  rw [dropScheme, dropScheme, dropSchemeAux_map_up]
  cases dropSchemeAux s with
  | none => rfl
  | some t => rfl

theorem takeWhile_ne_map_up (x : Char) (hx : x.toNat < 65) (s : Str) :
    (s.map toUpperChar).takeWhile (fun c => c ≠ x) =
      (s.takeWhile (fun c => c ≠ x)).map toUpperChar := by
  rw [List.takeWhile_map]
  congr 1
  congr 1
  funext c
  simp only [Function.comp]
  rw [decide_eq_decide]
  exact not_congr (toUpperChar_eq_iff c x hx)

theorem suffix_dot_map_up (s : Str) :
    (['.'] <:+ s.map toUpperChar) ↔ (['.'] <:+ s) := by
  induction s with
  | nil => simp
  | cons c rest ih =>
    rw [List.map_cons, List.suffix_cons_iff, List.suffix_cons_iff]
    apply or_congr _ ih
    constructor
    · intro h
      have h1 := List.head_eq_of_cons_eq h
      have h2 := List.tail_eq_of_cons_eq h
      rw [eq_comm, toUpperChar_eq_iff c '.' (by decide)] at h1
      rw [eq_comm, List.map_eq_nil_iff] at h2
      rw [h1, h2]
    · intro h
      have h1 := List.head_eq_of_cons_eq h
      have h2 := List.tail_eq_of_cons_eq h
      rw [← h1, ← h2]
      decide

theorem trimSuffix_dot_map_up (s : Str) :
    trimSuffix (s.map toUpperChar) ['.'] = (trimSuffix s ['.']).map toUpperChar := by
  rw [trimSuffix, trimSuffix]
  by_cases h : ['.'] <:+ s
  · rw [if_pos ((suffix_dot_map_up s).mpr h), if_pos h, List.length_map, ← List.map_take]
  · rw [if_neg (fun hc => h ((suffix_dot_map_up s).mp hc)), if_neg h]

theorem dropSchemeAux_mem (s t : Str) (haux : dropSchemeAux s = some t)
    (x : Char) (hx : x ∈ t) : x ∈ s := by
  induction s with
  | nil => simp [dropSchemeAux] at haux
  | cons c rest ih =>
    rw [dropSchemeAux] at haux
    by_cases hcond : c = ':' ∧ rest.take 2 = ['/', '/']
    · rw [if_pos hcond] at haux
      have ht := Option.some.inj haux
      apply List.mem_cons_of_mem
      rw [← ht] at hx
      exact (List.drop_sublist _ _).mem hx
    · rw [if_neg hcond] at haux
      exact List.mem_cons_of_mem c (ih haux)

theorem mem_of_mem_dropScheme (s : Str) (x : Char) (h : x ∈ dropScheme s) :
    x ∈ s := by
  rw [dropScheme] at h
  cases haux : dropSchemeAux s with
  | none =>
    rw [haux] at h
    exact h
  | some t =>
    rw [haux] at h
    exact dropSchemeAux_mem s t haux x h

/-- Normalization ignores the case of an ASCII input: upper-casing first
changes nothing.  (On non-ASCII input this can fail: upper-casing `'ſ'`
gives `'S'`, which lower-cases to `'s'`, not back to `'ſ'`.) -/
theorem cleanDomain_toUpperStr_of_ascii (s : Str) (h : ∀ c ∈ s, c.toNat < 128) :
    cleanDomain (toUpperStr s) = cleanDomain s := by
  rw [cleanDomain, cleanDomain, toUpperStr, dropScheme_map_up,
    takeWhile_ne_map_up '/' (by decide), takeWhile_ne_map_up ':' (by decide),
    trimSuffix_dot_map_up]
  apply toLowerStr_toUpperStr_of_ascii
  intro c hc
  apply h
  exact mem_of_mem_dropScheme s c
    (mem_of_mem_takeWhile _ _ c
      (mem_of_mem_takeWhile _ _ c (mem_of_mem_trimSuffix _ _ c hc)))

/-! ## Lemmas for the path and scheme order of operations -/

theorem takeWhile_ne_append_head (x : Char) (a b : Str) (h : x ∉ a) :
    (a ++ x :: b).takeWhile (fun c => c ≠ x) = a := by
  induction a with
  | nil =>
    rw [List.nil_append, List.takeWhile_cons]
    simp
  | cons c rest ih =>
    rw [List.cons_append, List.takeWhile_cons, if_pos]
    · rw [ih (fun hm => h (List.mem_cons_of_mem c hm))]
    · simp
      intro he
      exact h (he ▸ List.mem_cons_self c rest)

theorem dropSchemeAux_scheme (a b : Str) (h : '/' ∉ a) :
    dropSchemeAux (a ++ ':' :: '/' :: '/' :: b) = some b := by
  induction a with
  | nil =>
    rw [List.nil_append, dropSchemeAux, if_pos]
    · rfl
    · exact ⟨rfl, rfl⟩
  | cons c rest ih =>
    rw [List.cons_append, dropSchemeAux, if_neg]
    · exact ih (fun hm => h (List.mem_cons_of_mem c hm))
    · intro ⟨h1, h2⟩
      cases rest with
      | nil => simp at h2
      | cons d rest' =>
        cases rest' with
        | nil => simp at h2
        | cons e rest'' =>
          simp only [List.cons_append, List.take] at h2
          have hd := List.head_eq_of_cons_eq h2
          apply h
          rw [hd]
          exact List.mem_cons_of_mem c (List.mem_cons_self '/' _)

/-! ## Lemmas about splitting and joining on dots -/

theorem splitDots_ne_nil (s : Str) : splitDots s ≠ [] := by
  cases s with
  | nil => simp [splitDots]
  | cons c rest =>
    rw [splitDots]
    split
    · simp
    · split
      · simp
      · simp

theorem splitDots_no_dot (x : Str) (h : '.' ∉ x) : splitDots x = [x] := by
  induction x with
  | nil => rfl
  | cons c rest ih =>
    have hc : ¬(c = '.') := by
      intro he
      apply h
      rw [he]
      exact List.mem_cons_self '.' rest
    rw [splitDots, if_neg hc]
    rw [ih (fun hm => h (List.mem_cons_of_mem c hm))]

theorem splitDots_append_dot (x t : Str) (h : '.' ∉ x) :
    splitDots (x ++ '.' :: t) = x :: splitDots t := by
  induction x with
  | nil =>
    rw [List.nil_append, splitDots, if_pos rfl]
  | cons c rest ih =>
    have hc : ¬(c = '.') := by
      intro he
      apply h
      rw [he]
      exact List.mem_cons_self '.' rest
    rw [List.cons_append, splitDots, if_neg hc,
      ih (fun hm => h (List.mem_cons_of_mem c hm))]

theorem splitDots_joinDots (L : List Str) (hne : L ≠ [])
    (hdot : ∀ l ∈ L, '.' ∉ l) : splitDots (joinDots L) = L := by
  induction L with
  | nil => exact absurd rfl hne
  | cons x L' ih =>
    cases L' with
    | nil =>
      rw [joinDots]
      exact splitDots_no_dot x (hdot x (List.mem_cons_self x []))
    | cons y ys =>
      rw [joinDots, splitDots_append_dot x _ (hdot x (List.mem_cons_self x _)),
        ih (by simp) (fun l hl => hdot l (List.mem_cons_of_mem x hl))]

theorem joinDots_splitDots (s : Str) : joinDots (splitDots s) = s := by
  induction s with
  | nil => rfl
  | cons c rest ih =>
    rw [splitDots]
    by_cases h : c = '.'
    · rw [if_pos h]
      obtain ⟨p, ps, hps⟩ : ∃ p ps, splitDots rest = p :: ps := by
        cases hsp : splitDots rest with
        | nil => exact absurd hsp (splitDots_ne_nil rest)
        | cons p ps => exact ⟨p, ps, rfl⟩
      rw [hps]
      rw [hps] at ih
      rw [joinDots, List.nil_append, h, ih]
    · rw [if_neg h]
      cases hsp : splitDots rest with
      | nil => exact absurd hsp (splitDots_ne_nil rest)
      | cons p ps =>
        rw [hsp] at ih
        cases ps with
        | nil =>
          rw [joinDots]
          rw [joinDots] at ih
          rw [ih]
        | cons q qs =>
          rw [joinDots, List.cons_append]
          rw [joinDots] at ih
          rw [ih]

theorem joinDots_append (A B : List Str) (hA : A ≠ []) (hB : B ≠ []) :
    joinDots (A ++ B) = joinDots A ++ '.' :: joinDots B := by
  induction A with
  | nil => exact absurd rfl hA
  | cons x A' ih =>
    cases A' with
    | nil =>
      cases B with
      | nil => exact absurd rfl hB
      | cons y ys =>
        show joinDots (x :: y :: ys) = joinDots [x] ++ '.' :: joinDots (y :: ys)
        rw [joinDots, joinDots]
    | cons z zs =>
      have h2 : joinDots (z :: (zs ++ B)) = joinDots (z :: zs) ++ '.' :: joinDots B :=
        ih (by simp)
      show joinDots (x :: z :: (zs ++ B)) = joinDots (x :: z :: zs) ++ '.' :: joinDots B
      rw [joinDots, h2, joinDots, List.append_assoc, List.cons_append]

theorem trimSuffix_append (a b : Str) : trimSuffix (a ++ b) b = a := by
  rw [trimSuffix, if_pos (List.suffix_append a b), List.length_append]
  have : a.length + b.length - b.length = a.length := by omega
  rw [this, List.take_left]

/-! ## The ICANN fallback of the suffix resolver -/

theorem findSuffix_no_match (r : PSRules) (labels : List Str)
    (h : ∀ t ∈ labels.tails, t ≠ [] → candSuffix r t = none) (hne : labels ≠ []) :
    findSuffix r labels = [labels.getLastD []] := by
  induction labels with
  | nil => exact absurd rfl hne
  | cons x rest ih =>
    cases rest with
    | nil =>
      have hc : candSuffix r [x] = none := by
        apply h
        · rw [List.mem_tails]
        · simp
      rw [findSuffix, hc]
      rfl
    | cons y ys =>
      have hc : candSuffix r (x :: y :: ys) = none := by
        apply h
        · rw [List.mem_tails]
        · simp
      have hrec : ∀ t ∈ (y :: ys).tails, t ≠ [] → candSuffix r t = none := by
        intro t ht htne
        apply h t _ htne
        rw [List.mem_tails] at ht ⊢
        exact ht.trans (List.suffix_cons x (y :: ys))
      rw [findSuffix, hc]
      exact ih hrec (by simp)

/-! ## Claim theorems -/

/-- C1: For every rule set and every string input, `Extract` returns `.ok`
(a non-nil `Result` and a nil error): the extraction path is total, and
degenerate all-empty results are ordinary outputs, never errors. -/
theorem extract_total (rules : PSRules) (s : Str) :
    ∃ res : Result, Extract rules s = Except.ok res := by
  unfold Extract
  dsimp only
  split
  · exact ⟨_, rfl⟩
  · split
    · exact ⟨_, rfl⟩
    · exact ⟨_, rfl⟩

/-- C3: For every normalized host whose computed public suffix equals the
entire host, `Extract` returns an empty subdomain, an empty domain, and the
whole host as the TLD. -/
theorem extract_whole_host_suffix (rules : PSRules) (host : Str)
    (hclean : cleanDomain host = host)
    (hsuf : publicSuffix rules host = host) :
    Extract rules host = Except.ok ⟨[], [], host⟩ := by
  simp [Extract, hclean, hsuf]

/-- Witness for C3: the single-label input `"com"` with `"com"` a known
plain suffix yields subdomain `""`, domain `""`, suffix `"com"`. -/
theorem extract_whole_host_suffix_witness :
    Extract toyRules ("com".toList) = Except.ok ⟨[], [], "com".toList⟩ :=
  extract_whole_host_suffix toyRules ("com".toList) (by decide) (by decide)

/-- C4 counterexample: `cleanDomain` is not idempotent: only one trailing
dot is stripped per pass, so `"a.."` normalizes to `"a."`, which normalizes
again to `"a"`. -/
theorem cleanDomain_not_idempotent_counterexample :
    cleanDomain (cleanDomain ("a..".toList)) ≠ cleanDomain ("a..".toList) := by
  decide

/-- C4 (amended): re-normalizing the output of `cleanDomain` only re-runs
the single trailing-dot strip — scheme, path and port removal and
lower-casing are all idempotent — so `cleanDomain (cleanDomain x)` equals
`trimSuffix (cleanDomain x) ["."]`, and the output carries no `'/'` or
`':'` and is fully lower-case; idempotence fails exactly when the
normalized output still ends in a dot (input host ending in two or more
dots). -/
theorem cleanDomain_idempotent_up_to_trailing_dot :
    (∀ s : Str, cleanDomain (cleanDomain s) = trimSuffix (cleanDomain s) ['.']) ∧
    (∀ s : Str, '/' ∉ cleanDomain s ∧ ':' ∉ cleanDomain s ∧
      toLowerStr (cleanDomain s) = cleanDomain s) :=
  ⟨cleanDomain_cleanDomain,
   fun s => ⟨no_slash_cleanDomain s, no_colon_cleanDomain s, toLowerStr_cleanDomain s⟩⟩

/-- C5 counterexample: extraction is not case-insensitive for every
string.  Upper-casing `"ſ"` (U+017F) gives `"S"`, which normalizes to
`"s"`, while `"ſ"` itself is a fixed point of lower-casing — as in Go,
where `strings.ToUpper("ſ") = "S"` and `strings.ToLower("S") = "s"` do
not restore the original — so the two extractions return different
TLDs. -/
theorem extract_case_insensitive_counterexample :
    Extract toyRules (toUpperStr ("ſ".toList)) ≠ Extract toyRules ("ſ".toList) := by
  have h1 : Extract toyRules (toUpperStr ("ſ".toList)) =
      Except.ok ⟨[], [], "s".toList⟩ := by rfl
  have h2 : Extract toyRules ("ſ".toList) =
      Except.ok ⟨[], [], "ſ".toList⟩ := by rfl
  rw [h1, h2]
  intro h
  have h3 := Except.ok.inj h
  have h4 : ("s".toList : Str) = "ſ".toList := congrArg Result.TLD h3
  exact absurd h4 (by decide)

/-- C5 (amended): extraction is case-insensitive on ASCII input: for every
string of characters with code points below 128, upper-casing the raw
input first does not change the extracted result.  On full Unicode the
original claim fails at the case-asymmetric characters (see the
counterexample). -/
theorem extract_case_insensitive_ascii (rules : PSRules) (s : Str)
    (h : ∀ c ∈ s, c.toNat < 128) :
    Extract rules (toUpperStr s) = Extract rules s := by
  have hc := cleanDomain_toUpperStr_of_ascii s h
  unfold Extract
  rw [hc]

/-- Witness for the amended C5: a mixed-case ASCII input extracts the same
with and without prior upper-casing. -/
theorem extract_case_insensitive_ascii_witness :
    Extract toyRules (toUpperStr ("www.Example.COM.".toList)) =
      Extract toyRules ("www.Example.COM.".toList) :=
  extract_case_insensitive_ascii toyRules ("www.Example.COM.".toList) (by decide)

/-- C9: `ExtractFromURL` is extensionally equal to `Extract`: same result,
same (absent) error, for every rule set and every input. -/
theorem extractFromURL_eq_extract (rules : PSRules) (url : Str) :
    ExtractFromURL rules url = Extract rules url := rfl

/-- C10: on a host with an empty label immediately before the suffix,
`Extract` returns an empty `Domain`: `"a..com"` (with `"com"` a known
suffix) yields subdomain `"a"`, domain `""`, TLD `"com"`, with no error. -/
theorem extract_empty_domain_consecutive_dots :
    Extract toyRules ("a..com".toList) =
      Except.ok ⟨"a".toList, [], "com".toList⟩ := by rfl

/-- C6: the normalizer applies its steps in order — scheme removal first,
then path truncation, then port truncation.  First conjunct: a `':'`
appearing only after the first `'/'` (inside the path) never triggers
port-stripping — the result is as if the path were absent.  Second
conjunct: a `':'` before the scheme separator `"://"` is discarded with
the scheme — the result only depends on what follows `"://"`.  (The
side conditions say the pre-path part has no `'/'` or `':'` of its own
and the remainder contains no further `"://"` occurrence.) -/
theorem cleanDomain_order_of_operations :
    (∀ a b : Str, '/' ∉ a → ':' ∉ a → dropSchemeAux b = none →
      cleanDomain (a ++ '/' :: b) = cleanDomain a) ∧
    (∀ a b : Str, '/' ∉ a → dropSchemeAux b = none →
      cleanDomain (a ++ ':' :: '/' :: '/' :: b) = cleanDomain b) := by
  constructor
  · intro a b hsl hcl hb
    have h1 : dropSchemeAux (a ++ '/' :: b) = none := by
      rw [dropSchemeAux_append_no_colon a _ hcl, dropSchemeAux, if_neg]
      · exact hb
      · intro ⟨g, _⟩
        exact absurd g (by decide)
    have h2 : dropSchemeAux a = none := by
      have h3 := dropSchemeAux_append_no_colon a [] hcl
      rw [List.append_nil] at h3
      rw [h3]
      rfl
    simp only [cleanDomain, dropScheme, h1, h2, Option.getD_none]
    rw [takeWhile_ne_append_head '/' a b hsl, takeWhile_ne_eq_self '/' a hsl]
  · intro a b hsl hb
    have h1 : dropSchemeAux (a ++ ':' :: '/' :: '/' :: b) = some b :=
      dropSchemeAux_scheme a b hsl
    simp only [cleanDomain, dropScheme, h1, hb, Option.getD_none, Option.getD_some]

/-- Witness for C6: a colon inside the path (`"example.com/p:8080"`) does
not strip at the colon, and a colon before the scheme separator
(`"a:b://example.com"`) is discarded with the scheme. -/
theorem cleanDomain_order_of_operations_witness :
    cleanDomain ("example.com".toList ++ '/' :: "p:8080".toList) =
      cleanDomain ("example.com".toList) ∧
    cleanDomain ("a:b".toList ++ ':' :: '/' :: '/' :: "example.com".toList) =
      cleanDomain ("example.com".toList) :=
  ⟨cleanDomain_order_of_operations.1 _ _ (by decide) (by decide) (by decide),
   cleanDomain_order_of_operations.2 _ _ (by decide) (by decide)⟩

/-- C7: on a normalized non-empty host none of whose trailing-label
combinations matches any rule, the resolver does not fail: it falls back
to the last label as the suffix (ICANN convention); when the host is a
single unlisted label, the whole host becomes the suffix and `Extract`
returns empty domain and subdomain with no error. -/
theorem extract_fallback_last_label (rules : PSRules) (host : Str)
    (hclean : cleanDomain host = host) (hne : host ≠ [])
    (hnm : ∀ t ∈ (splitDots host).tails, t ≠ [] → candSuffix rules t = none) :
    publicSuffix rules host = (splitDots host).getLastD [] ∧
    ((splitDots host).length = 1 →
      Extract rules host = Except.ok ⟨[], [], host⟩) := by
  have hsne := splitDots_ne_nil host
  have hfind := findSuffix_no_match rules _ hnm hsne
  constructor
  · rw [publicSuffix, hfind, joinDots]
  · intro hlen
    obtain ⟨l, hl⟩ := List.length_eq_one.mp hlen
    have hhost : l = host := by
      have h3 := joinDots_splitDots host
      rw [hl, joinDots] at h3
      exact h3
    have hsuf : publicSuffix rules host = host := by
      rw [publicSuffix, hfind, joinDots, hl]
      rw [hhost]
      rfl
    simp [Extract, hclean, hsuf]

/-- Witness for C7: with the toy rule set, the single unlisted label
`"xyz"` matches no rule; the fallback makes it the suffix, and extraction
returns all-empty subdomain and domain. -/
theorem extract_fallback_last_label_witness :
    publicSuffix toyRules ("xyz".toList) = "xyz".toList ∧
    Extract toyRules ("xyz".toList) = Except.ok ⟨[], [], "xyz".toList⟩ := by
  have h := extract_fallback_last_label toyRules ("xyz".toList)
    (by decide) (by decide) (by decide)
  exact ⟨h.1, h.2 (by decide)⟩

/-- C8: the derived accessors compute the spec's definitions: `String`
(the registrable domain) is `Domain ++ "." ++ TLD` when `Domain` is
non-empty and `TLD` alone when it is empty; `FQDN` is the dot-join of the
non-empty fields among `Subdomain`, `Domain`, `TLD` in that order; and for
every result produced by `Extract`, the registrable domain reconstructs to
`domain.suffix` (or just the suffix when the domain is empty). -/
theorem result_accessors :
    (∀ r : Result, r.Domain ≠ [] → Result.String r = r.Domain ++ ['.'] ++ r.TLD) ∧
    (∀ r : Result, r.Domain = [] → Result.String r = r.TLD) ∧
    (∀ r : Result, Result.FQDN r =
      joinDots (List.filter (fun x => x ≠ []) [r.Subdomain, r.Domain, r.TLD])) ∧
    (∀ (rules : PSRules) (s : Str) (res : Result),
      Extract rules s = Except.ok res →
      Result.String res =
        if res.Domain = [] then res.TLD else res.Domain ++ ['.'] ++ res.TLD) := by
  refine ⟨?_, ?_, ?_, ?_⟩
  · intro r h
    rw [Result.String, if_neg h]
  · intro r h
    rw [Result.String, if_pos h]
  · intro r
    by_cases h1 : r.Subdomain = [] <;> by_cases h2 : r.Domain = [] <;>
      by_cases h3 : r.TLD = [] <;>
      simp [Result.FQDN, List.filter, h1, h2, h3]
  · intro rules s res _
    rw [Result.String]

/-- Witness for C8: the accessor equations evaluated on concrete results,
including one produced by `Extract` on `"www.example.com"`. -/
theorem result_accessors_witness :
    Result.String ⟨"www".toList, "example".toList, "com".toList⟩ =
      "example".toList ++ ['.'] ++ "com".toList ∧
    Result.String ⟨[], [], "com".toList⟩ = "com".toList ∧
    Result.String ⟨"api.v2".toList, "example".toList, "co.uk".toList⟩ =
      (if ("example".toList : Str) = [] then "co.uk".toList
       else "example".toList ++ ['.'] ++ "co.uk".toList) :=
  ⟨result_accessors.1 ⟨"www".toList, "example".toList, "com".toList⟩ (by decide),
   result_accessors.2.1 ⟨[], [], "com".toList⟩ rfl,
   result_accessors.2.2.2 toyRules ("api.v2.example.co.uk".toList)
     ⟨"api.v2".toList, "example".toList, "co.uk".toList⟩ (by rfl)⟩

/-- C2: for every normalized host of the form
`(N leading labels).label.suffix` — the labels dot-free and non-empty,
`suffix` a known suffix of the rule set matched (as an atomic unit) by the
resolver for this host — extraction returns the N leading labels
dot-joined in original order as the subdomain (empty when N = 0), `label`
as the domain, and `suffix` as the TLD, for every N ≥ 0. -/
theorem extract_partition (rules : PSRules) (subs : List Str) (label : Str)
    (sufLabs : List Str)
    (hlabel : label ≠ [] ∧ '.' ∉ label)
    (hsubs : ∀ l ∈ subs, l ≠ [] ∧ '.' ∉ l)
    (hsuf : sufLabs ≠ [])
    (hknown : sufLabs ∈ rules.plain)
    (hclean : cleanDomain (joinDots (subs ++ label :: sufLabs)) =
      joinDots (subs ++ label :: sufLabs))
    (hmatch : publicSuffix rules (joinDots (subs ++ label :: sufLabs)) =
      joinDots sufLabs) :
    Extract rules (joinDots (subs ++ label :: sufLabs)) =
      Except.ok ⟨joinDots subs, label, joinDots sufLabs⟩ := by
  have hAne : subs ++ [label] ≠ [] := by simp
  have hjoin : joinDots (subs ++ label :: sufLabs) =
      joinDots (subs ++ [label]) ++ '.' :: joinDots sufLabs := by
    have hAcons : subs ++ label :: sufLabs = (subs ++ [label]) ++ sufLabs := by simp
    rw [hAcons, joinDots_append _ _ hAne hsuf]
  have hneq : joinDots (subs ++ label :: sufLabs) ≠ joinDots sufLabs := by
    rw [hjoin]
    intro he
    have hlen := congrArg List.length he
    rw [List.length_append, List.length_cons] at hlen
    omega
  have htrim : trimSuffix (joinDots (subs ++ label :: sufLabs))
      ('.' :: joinDots sufLabs) = joinDots (subs ++ [label]) := by
    rw [hjoin]
    exact trimSuffix_append _ _
  have hsplit : splitDots (joinDots (subs ++ [label])) = subs ++ [label] := by
    apply splitDots_joinDots _ hAne
    intro l hl
    rcases List.mem_append.mp hl with h | h
    · exact (hsubs l h).2
    · rw [List.mem_singleton] at h
      rw [h]
      exact hlabel.2
  unfold Extract
  dsimp only
  rw [hclean, hmatch, if_neg hneq, htrim, hsplit]
  rw [if_neg (by simp)]
  rw [List.getLastD_concat, List.dropLast_concat]
  by_cases hs : subs = []
  · subst hs
    rw [if_neg (by simp)]
    rfl
  · have hgt : (subs ++ [label]).length > 1 := by
      have h0 : subs.length ≠ 0 := fun h => hs (List.length_eq_zero.mp h)
      rw [List.length_append, List.length_cons, List.length_nil]
      omega
    rw [if_pos hgt]

/-- Witness for C2: `"www.example.co.uk"` with the multi-label known
suffix `"co.uk"` splits into subdomain `"www"`, domain `"example"`,
TLD `"co.uk"`. -/
theorem extract_partition_witness :
    Extract toyRules
        (joinDots (["www".toList] ++ "example".toList ::
          ["co".toList, "uk".toList])) =
      Except.ok ⟨joinDots ["www".toList], "example".toList,
        joinDots ["co".toList, "uk".toList]⟩ :=
  extract_partition toyRules ["www".toList] ("example".toList)
    ["co".toList, "uk".toList] (by decide) (by decide) (by decide)
    (by decide) (by decide) (by decide)
